import Mathlib

/-!
Verification of the Gem-Hunter Minesweeper-to-SAT core
(`Source/Source_code/PysatSupport.py`).

The Python source is shallowly embedded: grids are lists of rows of cells,
positions are pairs of integers (Python offsets can be negative before the
bounds check), SAT variables and literals are integers, and code paths that
raise a Python exception (`ValueError` from `itertools.combinations` on a
negative count, `int()` on a non-numeric cell) are modelled as `none`.
-/

namespace GemHunter

open scoped List

/-- A grid cell: the unknown marker `'_'`, an integer hint, or (post-solve)
the mine marker `'T'` / safe marker `'G'`. -/
inductive Cell where
  | unknown : Cell
  | hint : Int → Cell
  | mine : Cell
  | safe : Cell
deriving DecidableEq, Repr

/-- A grid is a list of rows of cells (Python `list` of `list`s). -/
abbrev Grid := List (List Cell)

/-- Python `grid[r][c]` (used by the source only at positions already
checked to be in bounds; out-of-range reads default to `unknown`). -/
def cellAt (grid : Grid) (pos : Int × Int) : Cell :=
  (grid.getD pos.1.toNat []).getD pos.2.toNat Cell.unknown

/-- `convert_to_flatten(pos, size)`: `r*num_c + c + 1`. -/
def convert_to_flatten (pos : Int × Int) (size : Nat × Nat) : Int :=
  pos.1 * (size.2 : Int) + pos.2 + 1

/-- `convert_to_2D(flat, size)`: `((flat-1) // num_c, (flat-1) % num_c)`,
with Python floor division and floor modulo (`Int.fdiv` / `Int.fmod`). -/
def convert_to_2D (flat : Int) (size : Nat × Nat) : Int × Int :=
  ((flat - 1).fdiv (size.2 : Int), (flat - 1).fmod (size.2 : Int))

/-- `generate_around(pos, size)`: the in-bounds positions `pos + (i, j)`
for offsets `i, j ∈ {-1, 0, 1}`, scanned in row-major offset order. -/
def generate_around (pos : Int × Int) (size : Nat × Nat) : List (Int × Int) :=
  ([-1, 0, 1] : List Int).flatMap fun i =>
    ([-1, 0, 1] : List Int).flatMap fun j =>
      let q : Int × Int := (pos.1 + i, pos.2 + j)
      if 0 ≤ q.1 ∧ q.1 < (size.1 : Int) ∧ 0 ≤ q.2 ∧ q.2 < (size.2 : Int) then [q] else []

/-- `is_valid(pos, grid, size)`: in bounds and the cell is the unknown marker. -/
def is_valid (pos : Int × Int) (grid : Grid) (size : Nat × Nat) : Bool :=
  decide (0 ≤ pos.1 ∧ pos.1 < (size.1 : Int) ∧ 0 ≤ pos.2 ∧ pos.2 < (size.2 : Int) ∧
    cellAt grid pos = Cell.unknown)

/-- `itertools.combinations(l, k)`: all length-`k` sublists of `l`, in
lexicographic order of the selected index tuples. -/
def combos {α : Type} : List α → Nat → List (List α)
  | _, 0 => [[]]
  | [], _ + 1 => []
  | x :: xs, k + 1 => ((combos xs k).map (fun c => x :: c)) ++ combos xs (k + 1)

/-- `list_combination(n, k)`: `[]` if `k > n`, otherwise
`list(itertools.combinations(range(1, n+1), k))`; `itertools.combinations`
raises `ValueError` on a negative `k`, modelled as `none`. -/
def list_combination (n : Nat) (k : Int) : Option (List (List Nat)) :=
  if k > (n : Int) then some []
  else if k < 0 then none
  else some (combos (List.range' 1 n) k.toNat)

/-- Python `int(cell)`: defined on integer hints, raises (`none`) otherwise
(the `'_'` case never reaches it in `generate_CNF`). -/
def hintValue : Cell → Option Int
  | Cell.hint n => some n
  | _ => none

/-- The `list_cells` built by `generate_CNF`: flattened variables of the
valid (in-bounds, still-unknown) neighbors of `pos`. -/
def unknown_neighbor_vars (pos : Int × Int) (grid : Grid) (size : Nat × Nat) : List Int :=
  ((generate_around pos size).filter (fun q => is_valid q grid size)).map
    (fun q => convert_to_flatten q size)

/-- `generate_CNF(pos, grid, size)`: `[]` for an unknown cell; otherwise the
upper-bound clauses (negated literals over every `(h+1)`-combination)
followed by the lower-bound clauses (positive literals over every
`(m-h+1)`-combination). The source's local `list_cells` is
`unknown_neighbor_vars` and `num_valid` is its length; a raised exception
is modelled as `none`. -/
def generate_CNF (pos : Int × Int) (grid : Grid) (size : Nat × Nat) :
    Option (List (List Int)) :=
  if cellAt grid pos = Cell.unknown then some []
  else
    match hintValue (cellAt grid pos) with
    | none => none
    | some number =>
      match list_combination (unknown_neighbor_vars pos grid size).length
          (number + 1) with
      | none => none
      | some first_comb =>
        match list_combination (unknown_neighbor_vars pos grid size).length
            (((unknown_neighbor_vars pos grid size).length : Int) - number + 1) with
        | none => none
        | some second_comb =>
          some (first_comb.map (fun comb => comb.map (fun index =>
              -((unknown_neighbor_vars pos grid size).getD (index - 1) 0))) ++
            second_comb.map (fun comb => comb.map (fun index =>
              (unknown_neighbor_vars pos grid size).getD (index - 1) 0)))

/-- The grid positions `(r, c)` for `r in range(num_r)`, `c in range(num_c)`,
in row-major order, as iterated by `solve_by_pysat`. -/
def positions_row_major (size : Nat × Nat) : List (Int × Int) :=
  (List.range size.1).flatMap fun r =>
    (List.range size.2).map fun c => ((r : Int), (c : Int))

/-- The clause list `solve_by_pysat` hands to the SAT solver: the per-cell
clause lists in row-major order, accumulated by `cnf.extend`. -/
def solve_formula (grid : Grid) (size : Nat × Nat) : Option (List (List Int)) :=
  ((positions_row_major size).mapM (fun p => generate_CNF p grid size)).map
    (fun clauses => clauses.foldl (fun acc cl => acc ++ cl) [])

/-- One inner-loop iteration of `ouput_for_pysat`: `continue` unless the
cell at `(r, c)` is still the unknown marker, otherwise write `'T'` when
`index = r*num_c + c` is in range of the assignment with a positive value
and `'G'` otherwise. -/
def decodeRowStep (list_result : List Int) (size : Nat × Nat) (r : Nat)
    (output : Grid) (c : Nat) : Grid :=
  if (output.getD r []).getD c Cell.unknown ≠ Cell.unknown then output
  else
    if r * size.2 + c < list_result.length ∧
        0 < list_result.getD (r * size.2 + c) 0 then
      output.set r ((output.getD r []).set c Cell.mine)
    else
      output.set r ((output.getD r []).set c Cell.safe)

/-- `ouput_for_pysat(list_result, grid, size)` at the level of cell values:
the two nested Python loops over `range(num_r)` and `range(num_c)`,
applying `decodeRowStep` at every position in row-major order. -/
def ouput_for_pysat (list_result : List Int) (grid : Grid) (size : Nat × Nat) : Grid :=
  (List.range size.1).foldl (fun output r =>
    (List.range size.2).foldl (decodeRowStep list_result size r) output) grid

/-- The cell value written for an originally-unknown cell. -/
def decodeCell (list_result : List Int) (size : Nat × Nat) (r c : Nat) : Cell :=
  if r * size.2 + c < list_result.length ∧
      0 < list_result.getD (r * size.2 + c) 0 then
    Cell.mine
  else
    Cell.safe

/-- `ouput_for_pysat` with Python reference semantics: rows live in a heap
addressed by row references, a grid is its list of row references, and
`output = grid.copy()` is a shallow copy that shares the row references.
Returns the final heap together with the output grid's row references. -/
def ouput_for_pysat_refs (list_result : List Int) (grid : List Nat)
    (size : Nat × Nat) (heap : List (List Cell)) : List (List Cell) × List Nat :=
  let output := grid
  let final := (List.range size.1).foldl (fun h r =>
    (List.range size.2).foldl (fun h c =>
      let row := h.getD (output.getD r 0) []
      if row.getD c Cell.unknown ≠ Cell.unknown then h
      else
        let index := r * size.2 + c
        if index < list_result.length ∧ 0 < list_result.getD index 0 then
          h.set (output.getD r 0) (row.set c Cell.mine)
        else
          h.set (output.getD r 0) (row.set c Cell.safe)) h) heap
  (final, output)

/-- Truth of a signed SAT literal under an assignment of the variables. -/
def litSat (σ : Int → Bool) (lit : Int) : Bool :=
  if 0 < lit then σ lit else !σ (-lit)

/-- A clause (disjunction) is satisfied when some literal is true. -/
def clauseSat (σ : Int → Bool) (cl : List Int) : Bool :=
  cl.any (litSat σ)

/-- A formula (conjunction of clauses) is satisfied when every clause is. -/
def formulaSat (σ : Int → Bool) (f : List (List Int)) : Bool :=
  f.all (clauseSat σ)

/-! ### Coordinate mapper -/

theorem flatten_roundtrip (p : Int × Int) (size : Nat × Nat)
    (h1 : 0 ≤ p.1) (h3 : 0 ≤ p.2) (h4 : p.2 < (size.2 : Int)) :
    convert_to_2D (convert_to_flatten p size) size = p := by
  obtain ⟨r, c⟩ := p
  have hc : (0 : Int) < (size.2 : Int) := lt_of_le_of_lt h3 h4
  simp only [convert_to_2D, convert_to_flatten]
  rw [Int.fdiv_eq_ediv _ (le_of_lt hc), Int.fmod_eq_emod _ (le_of_lt hc)]
  have hrw : r * (size.2 : Int) + c + 1 - 1 = c + (size.2 : Int) * r := by ring
  rw [hrw, Prod.mk.injEq]
  constructor
  · rw [Int.add_mul_ediv_left _ _ (ne_of_gt hc), Int.ediv_eq_zero_of_lt h3 h4, zero_add]
  · rw [Int.add_mul_emod_self_left, Int.emod_eq_of_lt h3 h4]

theorem unflatten_roundtrip (v : Int) (size : Nat × Nat) (hc : 0 < size.2) :
    convert_to_flatten (convert_to_2D v size) size = v := by
  simp only [convert_to_2D, convert_to_flatten]
  rw [Int.fdiv_eq_ediv _ (by positivity), Int.fmod_eq_emod _ (by positivity)]
  have h := Int.ediv_add_emod (v - 1) (size.2 : Int)
  have h2 : (v - 1) / (size.2 : Int) * (size.2 : Int) =
      (size.2 : Int) * ((v - 1) / (size.2 : Int)) := mul_comm _ _
  linarith

/-- C2: `convert_to_flatten` and `convert_to_2D` are mutually inverse: on
in-bounds positions and on variables `1..rows*cols` the two conversions
round-trip. -/
theorem convert_bijection (size : Nat × Nat) (p : Int × Int) (v : Int)
    (hrows : 0 < size.1) (hcols : 0 < size.2)
    (hp1 : 0 ≤ p.1) (hp2 : p.1 < (size.1 : Int))
    (hp3 : 0 ≤ p.2) (hp4 : p.2 < (size.2 : Int))
    (hv1 : 1 ≤ v) (hv2 : v ≤ (size.1 : Int) * (size.2 : Int)) :
    convert_to_2D (convert_to_flatten p size) size = p ∧
    convert_to_flatten (convert_to_2D v size) size = v :=
  ⟨flatten_roundtrip p size hp1 hp3 hp4, unflatten_roundtrip v size hcols⟩

theorem convert_bijection_witness :
    convert_to_2D (convert_to_flatten (1, 2) (2, 3)) (2, 3) = (1, 2) ∧
    convert_to_flatten (convert_to_2D 5 (2, 3)) (2, 3) = 5 :=
  convert_bijection (2, 3) (1, 2) 5 (by decide) (by decide) (by decide)
    (by decide) (by decide) (by decide) (by decide) (by decide)

/-! ### Neighborhood enumerator -/

theorem mem_generate_around {pos : Int × Int} {size : Nat × Nat} {q : Int × Int}
    (hq : q ∈ generate_around pos size) :
    0 ≤ q.1 ∧ q.1 < (size.1 : Int) ∧ 0 ≤ q.2 ∧ q.2 < (size.2 : Int) := by
  simp only [generate_around, List.mem_flatMap] at hq
  obtain ⟨i, _, j, _, hq⟩ := hq
  by_cases h : 0 ≤ pos.1 + i ∧ pos.1 + i < (size.1 : Int) ∧
      0 ≤ pos.2 + j ∧ pos.2 + j < (size.2 : Int)
  · rw [if_pos h] at hq
    simp only [List.mem_singleton] at hq
    subst hq
    exact h
  · rw [if_neg h] at hq
    simp at hq

theorem if_singleton_append {α : Type} (c : Prop) [Decidable c] (a : α) (l : List α) :
    (if c then [a] else []) ++ l = if c then a :: l else l := by
  split <;> simp

theorem if_cons_append {α : Type} (c : Prop) [Decidable c] (a : α) (l t : List α) :
    (if c then a :: l else l) ++ t = if c then a :: (l ++ t) else l ++ t := by
  split <;> simp

/-- `generate_around` unrolled: the nine shifted offsets in row-major
order, filtered to those in bounds. -/
theorem generate_around_eq (pos : Int × Int) (size : Nat × Nat) :
    generate_around pos size =
      (([(-1, -1), (-1, 0), (-1, 1), (0, -1), (0, 0), (0, 1),
         (1, -1), (1, 0), (1, 1)] : List (Int × Int)).map
        (fun o => (pos.1 + o.1, pos.2 + o.2))).filter
        (fun q => decide (0 ≤ q.1 ∧ q.1 < (size.1 : Int) ∧
          0 ≤ q.2 ∧ q.2 < (size.2 : Int))) := by
  simp only [generate_around, List.flatMap_cons, List.flatMap_nil, List.append_nil,
    if_singleton_append, if_cons_append, List.map_cons, List.map_nil, List.filter_cons,
    List.filter_nil, List.nil_append, decide_eq_true_eq]

/-- C7: `generate_around` returns exactly the in-bounds shifted positions
`pos + (i, j)` for the nine offsets in row-major order; every returned
position is in bounds, and `pos` itself appears whenever it is in bounds. -/
theorem generate_around_spec (pos : Int × Int) (size : Nat × Nat) :
    generate_around pos size =
      (([(-1, -1), (-1, 0), (-1, 1), (0, -1), (0, 0), (0, 1),
         (1, -1), (1, 0), (1, 1)] : List (Int × Int)).map
        (fun o => (pos.1 + o.1, pos.2 + o.2))).filter
        (fun q => decide (0 ≤ q.1 ∧ q.1 < (size.1 : Int) ∧
          0 ≤ q.2 ∧ q.2 < (size.2 : Int))) ∧
    (∀ q ∈ generate_around pos size,
      0 ≤ q.1 ∧ q.1 < (size.1 : Int) ∧ 0 ≤ q.2 ∧ q.2 < (size.2 : Int)) ∧
    ((0 ≤ pos.1 ∧ pos.1 < (size.1 : Int) ∧ 0 ≤ pos.2 ∧ pos.2 < (size.2 : Int)) →
      pos ∈ generate_around pos size) := by
  refine ⟨generate_around_eq pos size, fun q hq => mem_generate_around hq, ?_⟩
  intro h
  simp only [generate_around, List.mem_flatMap]
  refine ⟨0, by simp, 0, by simp, ?_⟩
  have h' : pos.1 + 0 = pos.1 := by ring
  have h'' : pos.2 + 0 = pos.2 := by ring
  rw [h', h'', if_pos h]
  simp

theorem generate_around_spec_witness :
    generate_around ((0 : Int), (0 : Int)) (2, 2) =
      (([(-1, -1), (-1, 0), (-1, 1), (0, -1), (0, 0), (0, 1),
         (1, -1), (1, 0), (1, 1)] : List (Int × Int)).map
        (fun o => ((0 : Int) + o.1, (0 : Int) + o.2))).filter
        (fun q => decide (0 ≤ q.1 ∧ q.1 < ((2 : Nat) : Int) ∧
          0 ≤ q.2 ∧ q.2 < ((2 : Nat) : Int))) ∧
    (((0 : Int), (0 : Int)) ∈ generate_around ((0 : Int), (0 : Int)) (2, 2)) := by
  have h := generate_around_spec ((0 : Int), (0 : Int)) (2, 2)
  exact ⟨h.1, h.2.2 (by decide)⟩

/-! ### Combination generator -/

theorem combos_zero {α : Type} (l : List α) : combos l 0 = [[]] := by
  cases l <;> rfl

theorem combos_succ_cons {α : Type} (x : α) (xs : List α) (k : Nat) :
    combos (x :: xs) (k + 1) =
      ((combos xs k).map (fun c => x :: c)) ++ combos xs (k + 1) := rfl

/-- `combos l k` enumerates exactly the length-`k` sublists of `l`. -/
theorem mem_combos {α : Type} (l : List α) : ∀ (k : Nat) (c : List α),
    c ∈ combos l k ↔ c <+ l ∧ c.length = k := by
  induction l with
  | nil =>
    intro k c
    cases k with
    | zero =>
      simp only [combos, List.mem_singleton, List.sublist_nil]
      constructor
      · rintro rfl; exact ⟨rfl, rfl⟩
      · rintro ⟨rfl, _⟩; rfl
    | succ k =>
      simp only [combos, List.not_mem_nil, false_iff, not_and, List.sublist_nil]
      rintro rfl
      simp
  | cons x xs ih =>
    intro k c
    cases k with
    | zero =>
      rw [combos_zero]
      simp only [List.mem_singleton]
      constructor
      · rintro rfl; exact ⟨List.nil_sublist _, rfl⟩
      · rintro ⟨_, hl⟩; exact List.length_eq_zero.mp hl
    | succ k =>
      rw [combos_succ_cons]
      simp only [List.mem_append, List.mem_map]
      constructor
      · rintro (⟨c', hc', rfl⟩ | hmem)
        · obtain ⟨hs, hlen⟩ := (ih k c').mp hc'
          exact ⟨List.Sublist.cons₂ x hs, by simp [hlen]⟩
        · obtain ⟨hs, hlen⟩ := (ih (k + 1) c).mp hmem
          exact ⟨List.Sublist.cons x hs, hlen⟩
      · rintro ⟨hs, hlen⟩
        rcases List.sublist_cons_iff.mp hs with hsub | ⟨r, rfl, hr⟩
        · exact Or.inr ((ih (k + 1) c).mpr ⟨hsub, hlen⟩)
        · refine Or.inl ⟨r, (ih k r).mpr ⟨hr, ?_⟩, rfl⟩
          simpa using hlen

theorem combos_map {α β : Type} (f : α → β) (l : List α) : ∀ k : Nat,
    combos (l.map f) k = (combos l k).map (List.map f) := by
  induction l with
  | nil => intro k; cases k <;> simp [combos]
  | cons x xs ih =>
    intro k
    cases k with
    | zero => simp [combos_zero]
    | succ k =>
      simp only [List.map_cons, combos_succ_cons, ih k, ih (k + 1),
        List.map_append, List.map_map]
      rfl

theorem combos_length {α : Type} (l : List α) : ∀ k : Nat,
    (combos l k).length = Nat.choose l.length k := by
  induction l with
  | nil => intro k; cases k <;> simp [combos]
  | cons x xs ih =>
    intro k
    cases k with
    | zero => simp [combos_zero]
    | succ k =>
      simp [combos_succ_cons, ih k, ih (k + 1), Nat.choose_succ_succ]

theorem combos_eq_nil_of_gt {α : Type} {l : List α} {k : Nat} (h : l.length < k) :
    combos l k = [] := by
  have := combos_length l k
  rw [Nat.choose_eq_zero_of_lt h] at this
  exact List.length_eq_zero.mp this

/-- On a non-negative count, `list_combination` is total and agrees with the
combination enumeration (also through the explicit `k > n` early return). -/
theorem list_combination_eq (n : Nat) (k : Int) (hk : 0 ≤ k) :
    list_combination n k = some (combos (List.range' 1 n) k.toNat) := by
  unfold list_combination
  split
  · rw [combos_eq_nil_of_gt (by simp only [List.length_range']; omega)]
  · rw [if_neg (by omega)]

/-- Every length-`k` sublist of `l` misses predicate `P` somewhere iff fewer
than `k` elements of `l` satisfy `P`. -/
theorem forall_combos_iff_countP_lt {α : Type} (l : List α) (k : Nat) (P : α → Bool) :
    (∀ c ∈ combos l k, ∃ x ∈ c, P x = false) ↔ l.countP P < k := by
  constructor
  · intro h
    by_contra hle
    push_neg at hle
    have hsub : (l.filter P).take k <+ l :=
      (List.take_sublist k (l.filter P)).trans (List.filter_sublist l)
    have hlen : ((l.filter P).take k).length = k := by
      rw [List.length_take]
      rw [List.countP_eq_length_filter] at hle
      omega
    obtain ⟨x, hx, hPx⟩ := h _ ((mem_combos l k _).mpr ⟨hsub, hlen⟩)
    have hxf : x ∈ l.filter P := (List.take_sublist k (l.filter P)).subset hx
    have : P x = true := (List.mem_filter.mp hxf).2
    rw [this] at hPx
    cases hPx
  · intro hlt c hmem
    obtain ⟨hsub, hlen⟩ := (mem_combos l k c).mp hmem
    by_contra hforall
    push_neg at hforall
    have hall : ∀ x ∈ c, P x = true := by
      intro x hx
      have := hforall x hx
      cases hPx : P x
      · exact absurd hPx this
      · rfl
    have hfc : c.filter P = c := List.filter_eq_self.mpr hall
    have hsubf : c.filter P <+ l.filter P := hsub.filter P
    rw [hfc] at hsubf
    have := hsubf.length_le
    rw [List.countP_eq_length_filter] at hlt
    omega

theorem map_getD_range {α : Type} (l : List α) (d : α) :
    (List.range l.length).map (fun i => l.getD i d) = l := by
  induction l with
  | nil => rfl
  | cons a t ih =>
    rw [List.length_cons, List.range_succ_eq_map]
    simp only [List.map_cons, List.getD_cons_zero, List.map_map]
    have heq : ((fun i => (a :: t).getD i d) ∘ Nat.succ) = fun i => t.getD i d := by
      funext i
      rfl
    rw [heq, ih]

/-- Selecting `list_cells[index-1]` over each combination of `{1..m}` is the
same as enumerating combinations of `list_cells` itself. -/
theorem combos_range'_map (V : List Int) (k : Nat) :
    (combos (List.range' 1 V.length) k).map
      (fun comb => comb.map (fun index => V.getD (index - 1) (0 : Int))) =
    combos V k := by
  have h2 : combos ((List.range V.length).map (fun i => V.getD i (0 : Int))) k
      = combos V k := by rw [map_getD_range]
  rw [combos_map] at h2
  rw [List.range'_eq_map_range, combos_map, List.map_map]
  have h1 : ((fun comb => comb.map fun index => V.getD (index - 1) (0 : Int)) ∘
      List.map (1 + ·)) = fun c => c.map (fun i => V.getD i (0 : Int)) := by
    funext c
    simp only [Function.comp_apply, List.map_map]
    congr 1
    funext i
    simp only [Function.comp_apply]
    congr 1
    omega
  rw [h1]
  exact h2

theorem combos_range'_map_neg (V : List Int) (k : Nat) :
    (combos (List.range' 1 V.length) k).map
      (fun comb => comb.map (fun index => -(V.getD (index - 1) (0 : Int)))) =
    (combos V k).map (List.map Neg.neg) := by
  rw [← combos_range'_map V k, List.map_map]
  congr 1
  funext comb
  simp [List.map_map]

/-! ### Clause synthesizer: exact cardinality semantics -/

/-- Every variable collected for a hint cell is a positive literal base. -/
theorem unknown_neighbor_vars_pos {pos : Int × Int} {grid : Grid} {size : Nat × Nat} :
    ∀ v ∈ unknown_neighbor_vars pos grid size, 0 < v := by
  intro v hv
  simp only [unknown_neighbor_vars, List.mem_map, List.mem_filter] at hv
  obtain ⟨q, ⟨hq, _⟩, rfl⟩ := hv
  obtain ⟨h1, _, h3, _⟩ := mem_generate_around hq
  unfold convert_to_flatten
  have hmul : 0 ≤ q.1 * ((size.2 : Nat) : Int) := mul_nonneg h1 (by positivity)
  linarith

theorem clauseSat_map_neg (σ : Int → Bool) (c : List Int) (hpos : ∀ v ∈ c, 0 < v) :
    clauseSat σ (c.map Neg.neg) = true ↔ ∃ v ∈ c, σ v = false := by
  simp only [clauseSat, List.any_map, List.any_eq_true, Function.comp_apply, litSat]
  constructor
  · rintro ⟨v, hv, hsat⟩
    rw [if_neg (by have := hpos v hv; omega), neg_neg] at hsat
    exact ⟨v, hv, by simpa using hsat⟩
  · rintro ⟨v, hv, hfalse⟩
    refine ⟨v, hv, ?_⟩
    rw [if_neg (by have := hpos v hv; omega), neg_neg, hfalse]
    rfl

theorem clauseSat_of_pos (σ : Int → Bool) (c : List Int) (hpos : ∀ v ∈ c, 0 < v) :
    clauseSat σ c = true ↔ ∃ v ∈ c, σ v = true := by
  simp only [clauseSat, List.any_eq_true, litSat]
  constructor
  · rintro ⟨v, hv, hsat⟩
    rw [if_pos (hpos v hv)] at hsat
    exact ⟨v, hv, hsat⟩
  · rintro ⟨v, hv, htrue⟩
    exact ⟨v, hv, by rw [if_pos (hpos v hv)]; exact htrue⟩

theorem countP_not_add (σ : Int → Bool) (V : List Int) :
    V.countP σ + V.countP (fun v => !σ v) = V.length := by
  induction V with
  | nil => rfl
  | cons a t ih =>
    cases ha : σ a <;> simp [List.countP_cons, ha] <;> omega

/-- C1: under `0 ≤ h ≤ m`, the clauses produced for a hint cell are
satisfied by an assignment iff exactly `h` of the unknown-neighbor
variables are assigned true. -/
theorem generate_CNF_exact_count (grid : Grid) (size : Nat × Nat) (pos : Int × Int)
    (h : Int) (σ : Int → Bool)
    (hb : 0 ≤ pos.1 ∧ pos.1 < (size.1 : Int) ∧ 0 ≤ pos.2 ∧ pos.2 < (size.2 : Int))
    (hcell : cellAt grid pos = Cell.hint h)
    (h0 : 0 ≤ h)
    (hm : h ≤ ((unknown_neighbor_vars pos grid size).length : Int)) :
    (generate_CNF pos grid size).isSome = true ∧
    (formulaSat σ ((generate_CNF pos grid size).getD []) = true ↔
      (((unknown_neighbor_vars pos grid size).countP σ : Int) = h)) := by
  set V := unknown_neighbor_vars pos grid size with hV
  set m := V.length with hmdef
  set n := h.toNat with hndef
  have hn : (n : Int) = h := Int.toNat_of_nonneg h0
  have hnm : n ≤ m := by omega
  have hne : ¬(cellAt grid pos = Cell.unknown) := by rw [hcell]; intro hcon; cases hcon
  have hfirst : list_combination m (h + 1) =
      some (combos (List.range' 1 m) (n + 1)) := by
    rw [list_combination_eq m (h + 1) (by omega)]
    congr 1
    congr 1
    omega
  have hsecond : list_combination m ((m : Int) - h + 1) =
      some (combos (List.range' 1 m) (m - n + 1)) := by
    rw [list_combination_eq m ((m : Int) - h + 1) (by omega)]
    congr 1
    congr 1
    omega
  have hcnf : generate_CNF pos grid size =
      some (((combos V (n + 1)).map (List.map Neg.neg)) ++ combos V (m - n + 1)) := by
    unfold generate_CNF
    rw [if_neg hne, hcell]
    show (match hintValue (Cell.hint h) with
      | none => none
      | some number => _) = _
    simp only [hintValue]
    rw [← hV, ← hmdef, hfirst, hsecond]
    dsimp only
    rw [hmdef, combos_range'_map_neg, combos_range'_map]
  rw [hcnf]
  refine ⟨rfl, ?_⟩
  simp only [Option.getD_some, formulaSat, List.all_append, Bool.and_eq_true,
    List.all_eq_true]
  have hupper : (∀ cl ∈ (combos V (n + 1)).map (List.map Neg.neg),
      clauseSat σ cl = true) ↔ V.countP σ < n + 1 := by
    rw [← forall_combos_iff_countP_lt V (n + 1) σ]
    simp only [List.mem_map, forall_exists_index, and_imp]
    constructor
    · intro hsat c hc
      have hpos : ∀ v ∈ c, 0 < v := fun v hv =>
        unknown_neighbor_vars_pos v (((mem_combos V (n + 1) c).mp hc).1.subset hv)
      exact (clauseSat_map_neg σ c hpos).mp (hsat (c.map Neg.neg) c hc rfl)
    · intro hcount cl c hc hcl
      subst hcl
      have hpos : ∀ v ∈ c, 0 < v := fun v hv =>
        unknown_neighbor_vars_pos v (((mem_combos V (n + 1) c).mp hc).1.subset hv)
      exact (clauseSat_map_neg σ c hpos).mpr (hcount c hc)
  have hlower : (∀ cl ∈ combos V (m - n + 1), clauseSat σ cl = true) ↔
      V.countP (fun v => !σ v) < m - n + 1 := by
    rw [← forall_combos_iff_countP_lt V (m - n + 1) (fun v => !σ v)]
    constructor
    · intro hsat c hc
      have hpos : ∀ v ∈ c, 0 < v := fun v hv =>
        unknown_neighbor_vars_pos v (((mem_combos V (m - n + 1) c).mp hc).1.subset hv)
      obtain ⟨v, hv, htrue⟩ := (clauseSat_of_pos σ c hpos).mp (hsat c hc)
      exact ⟨v, hv, by rw [htrue]; rfl⟩
    · intro hcount c hc
      have hpos : ∀ v ∈ c, 0 < v := fun v hv =>
        unknown_neighbor_vars_pos v (((mem_combos V (m - n + 1) c).mp hc).1.subset hv)
      obtain ⟨v, hv, hfalse⟩ := hcount c hc
      refine (clauseSat_of_pos σ c hpos).mpr ⟨v, hv, ?_⟩
      cases hsv : σ v
      · rw [hsv] at hfalse; cases hfalse
      · rfl
  rw [hupper, hlower]
  have hadd := countP_not_add σ V
  have hcle : V.countP σ ≤ m := by
    rw [hmdef]; exact List.countP_le_length σ
  omega

theorem generate_CNF_exact_count_witness :
    ((generate_CNF ((0 : Int), (0 : Int)) [[Cell.hint 1, Cell.unknown]] (1, 2)).isSome
      = true) ∧
    (formulaSat (fun v => v == 2)
        ((generate_CNF ((0 : Int), (0 : Int)) [[Cell.hint 1, Cell.unknown]] (1, 2)).getD [])
      = true ↔
      (((unknown_neighbor_vars ((0 : Int), (0 : Int)) [[Cell.hint 1, Cell.unknown]]
        (1, 2)).countP (fun v => v == 2) : Int) = 1)) :=
  generate_CNF_exact_count [[Cell.hint 1, Cell.unknown]] (1, 2) ((0 : Int), (0 : Int))
    1 (fun v => v == 2) (by decide) (by decide) (by decide) (by decide)

/-! ### Error behaviour on contradictory hints (claim C3) -/

/-- C3 exhibit: on a 1×1 grid whose only cell is the hint `2`, the hint
exceeds the number of unknown neighbors (`m = 0`) by two, the lower-bound
count `m - h + 1 = -1` is negative, and `generate_CNF` aborts with a raised
`ValueError` (modelled `none`) instead of returning an unsatisfiable clause
set: the second combination call, not the `k > n` guard, sees the negative
count. -/
theorem generate_CNF_hint_exceeds_crash :
    generate_CNF ((0 : Int), (0 : Int)) [[Cell.hint 2]] (1, 1) = none ∧
    list_combination 0 ((0 : Int) - 2 + 1) = none := by
  constructor <;> rfl

/-! ### Negative combination count (claim C6) -/

/-- A negative `k` slips past the `k > n` guard of `list_combination` and
reaches `itertools.combinations`, which raises `ValueError` (modelled
`none`) rather than returning a list of combinations. -/
theorem list_combination_neg_counterexample :
    list_combination 0 (-1) = none := rfl

theorem mem_range'_iff {s n m : Nat} : m ∈ List.range' s n ↔ s ≤ m ∧ m < s + n := by
  rw [List.mem_range']
  constructor
  · rintro ⟨i, hi, rfl⟩
    omega
  · intro hm
    exact ⟨m - s, by omega, by omega⟩

/-- A strictly increasing list whose elements lie in `[s, s+n)` is a
sublist of `range' s n`. -/
theorem sublist_range'_of_sorted : ∀ (n s : Nat) (c : List Nat),
    List.Pairwise (· < ·) c → (∀ x ∈ c, s ≤ x ∧ x < s + n) → c <+ List.range' s n := by
  intro n
  induction n with
  | zero =>
    intro s c _ hb
    cases c with
    | nil => simp
    | cons a t => exact absurd (hb a (List.mem_cons_self a t)) (by omega)
  | succ n ih =>
    intro s c hp hb
    rw [List.range'_succ]
    cases c with
    | nil => exact List.nil_sublist _
    | cons a t =>
      obtain ⟨hat, hpt⟩ := List.pairwise_cons.mp hp
      by_cases ha : a = s
      · subst ha
        refine List.Sublist.cons₂ a (ih (a + 1) t hpt ?_)
        intro x hx
        have h1 := hat x hx
        have h2 := hb x (List.mem_cons_of_mem a hx)
        omega
      · refine List.Sublist.cons s (ih (s + 1) (a :: t) hp ?_)
        intro x hx
        have h2 := hb x hx
        rcases List.mem_cons.mp hx with rfl | hx'
        · omega
        · have h1 := hat x hx'
          have h3 := hb a (List.mem_cons_self a t)
          omega

/-- Over a strictly increasing base list, the combinations are emitted in
strictly increasing lexicographic order. -/
theorem combos_lex_sorted : ∀ (l : List Nat) (k : Nat),
    List.Pairwise (· < ·) l →
    List.Pairwise (List.Lex (· < ·)) (combos l k) := by
  intro l
  induction l with
  | nil =>
    intro k _
    cases k with
    | zero => exact List.pairwise_singleton _ _
    | succ k => exact List.Pairwise.nil
  | cons x xs ih =>
    intro k hp
    obtain ⟨hx, hxs⟩ := List.pairwise_cons.mp hp
    cases k with
    | zero => rw [combos_zero]; exact List.pairwise_singleton _ _
    | succ k =>
      rw [combos_succ_cons, List.pairwise_append]
      refine ⟨List.Pairwise.map _ (fun a b hab => List.Lex.cons hab) (ih k hxs),
        ih (k + 1) hxs, ?_⟩
      intro c1 hc1 c2 hc2
      simp only [List.mem_map] at hc1
      obtain ⟨c, _, rfl⟩ := hc1
      obtain ⟨hs2, hlen2⟩ := (mem_combos xs (k + 1) c2).mp hc2
      cases c2 with
      | nil => simp at hlen2
      | cons b t =>
        have hbmem : b ∈ xs := hs2.subset (List.mem_cons_self b t)
        exact List.Lex.rel (hx b hbmem)

/-- C6 (amended to non-negative `k`): `list_combination n k` returns all
`C(n, k)` strictly-ascending `k`-element tuples over `{1..n}` in
lexicographic order, the empty list for `k > n`, and `[[]]` for `k = 0`. -/
theorem list_combination_spec (n : Nat) (k : Int) (hk : 0 ≤ k) :
    (list_combination n k).isSome = true ∧
    ((list_combination n k).getD []).length = Nat.choose n k.toNat ∧
    (∀ c, c ∈ (list_combination n k).getD [] ↔
      (List.Pairwise (· < ·) c ∧ c.length = k.toNat ∧ ∀ x ∈ c, 1 ≤ x ∧ x ≤ n)) ∧
    List.Pairwise (List.Lex (· < ·)) ((list_combination n k).getD []) ∧
    ((n : Int) < k → (list_combination n k).getD [] = []) ∧
    (k = 0 → (list_combination n k).getD [] = [[]]) := by
  rw [list_combination_eq n k hk]
  simp only [Option.isSome_some, Option.getD_some, true_and]
  refine ⟨?_, ?_, ?_, ?_, ?_⟩
  · rw [combos_length, List.length_range']
  · intro c
    rw [mem_combos]
    constructor
    · rintro ⟨hsub, hlen⟩
      refine ⟨List.Pairwise.sublist hsub (List.pairwise_lt_range' 1 n), hlen, ?_⟩
      intro x hx
      have := mem_range'_iff.mp (hsub.subset hx)
      omega
    · rintro ⟨hsort, hlen, hbnd⟩
      refine ⟨sublist_range'_of_sorted n 1 c hsort ?_, hlen⟩
      intro x hx
      have := hbnd x hx
      omega
  · exact combos_lex_sorted _ _ (List.pairwise_lt_range' 1 n)
  · intro hlt
    exact combos_eq_nil_of_gt (by simp only [List.length_range']; omega)
  · rintro rfl
    rw [Int.toNat_zero, combos_zero]

theorem list_combination_spec_witness :
    (list_combination 2 1).isSome = true ∧
    ((list_combination 2 1).getD []).length = Nat.choose 2 (1 : Int).toNat ∧
    (∀ c, c ∈ (list_combination 2 1).getD [] ↔
      (List.Pairwise (· < ·) c ∧ c.length = (1 : Int).toNat ∧ ∀ x ∈ c, 1 ≤ x ∧ x ≤ 2)) ∧
    List.Pairwise (List.Lex (· < ·)) ((list_combination 2 1).getD []) ∧
    (((2 : Nat) : Int) < 1 → (list_combination 2 1).getD [] = []) ∧
    ((1 : Int) = 0 → (list_combination 2 1).getD [] = [[]]) :=
  list_combination_spec 2 1 (by decide)

/-! ### Formula assembler (claim C5) -/

theorem foldl_append_eq_flatten {α : Type} : ∀ (L : List (List α)) (acc : List α),
    L.foldl (fun a b => a ++ b) acc = acc ++ L.flatten := by
  intro L
  induction L with
  | nil => intro acc; simp
  | cons a t ih => intro acc; simp [ih, List.append_assoc]

/-- C5: the clause list handed to the solver is exactly the concatenation of
the per-position `generate_CNF` results in row-major order (no
deduplication or reordering), and unknown cells contribute the empty clause
list. -/
theorem solve_formula_concat (grid : Grid) (size : Nat × Nat) :
    solve_formula grid size =
      ((positions_row_major size).mapM (fun p => generate_CNF p grid size)).map
        List.flatten ∧
    (∀ p : Int × Int, cellAt grid p = Cell.unknown →
      generate_CNF p grid size = some []) := by
  constructor
  · unfold solve_formula
    cases hm : (positions_row_major size).mapM (fun p => generate_CNF p grid size) with
    | none => rfl
    | some L => simp [foldl_append_eq_flatten]
  · intro p hp
    unfold generate_CNF
    rw [if_pos hp]

theorem solve_formula_concat_witness :
    (solve_formula [[Cell.unknown]] (1, 1) =
      ((positions_row_major (1, 1)).mapM
        (fun p => generate_CNF p [[Cell.unknown]] (1, 1))).map List.flatten) ∧
    generate_CNF ((0 : Int), (0 : Int)) [[Cell.unknown]] (1, 1) = some [] :=
  ⟨(solve_formula_concat [[Cell.unknown]] (1, 1)).1,
   (solve_formula_concat [[Cell.unknown]] (1, 1)).2 ((0 : Int), (0 : Int)) rfl⟩

/-! ### Distinct variables within each clause (claim C10) -/

theorem generate_around_nodup (pos : Int × Int) (size : Nat × Nat) :
    (generate_around pos size).Nodup := by
  rw [generate_around_eq]
  refine List.Nodup.filter _ (List.Nodup.map_on ?_ (by decide))
  rintro ⟨a, b⟩ _ ⟨a', b'⟩ _ hf
  have h1 : pos.1 + a = pos.1 + a' := congrArg Prod.fst hf
  have h2 : pos.2 + b = pos.2 + b' := congrArg Prod.snd hf
  have := add_left_cancel h1
  have := add_left_cancel h2
  simp_all

theorem unknown_neighbor_vars_nodup (pos : Int × Int) (grid : Grid) (size : Nat × Nat) :
    (unknown_neighbor_vars pos grid size).Nodup := by
  unfold unknown_neighbor_vars
  refine List.Nodup.map_on ?_ ((generate_around_nodup pos size).filter _)
  intro x hx y hy hf
  have hxb := mem_generate_around (List.mem_of_mem_filter hx)
  have hyb := mem_generate_around (List.mem_of_mem_filter hy)
  have hroundx := flatten_roundtrip x size hxb.1 hxb.2.2.1 hxb.2.2.2
  have hroundy := flatten_roundtrip y size hyb.1 hyb.2.2.1 hyb.2.2.2
  rw [← hroundx, ← hroundy, hf]

theorem getD_eq_getElem_int {l : List Int} {i : Nat} (h : i < l.length) :
    l.getD i 0 = l[i] := by
  rw [List.getD_eq_getElem?_getD, List.getElem?_eq_getElem h]
  rfl

/-- Every clause produced by `generate_CNF` is drawn from one combination,
applied positively or negatively to the collected neighbor variables. -/
theorem generate_CNF_clause_shape {pos : Int × Int} {grid : Grid} {size : Nat × Nat}
    {clauses : List (List Int)} {cl : List Int}
    (hsome : generate_CNF pos grid size = some clauses) (hcl : cl ∈ clauses) :
    ∃ (k : Nat) (c : List Nat),
      c ∈ combos (List.range' 1 (unknown_neighbor_vars pos grid size).length) k ∧
      (cl = c.map
        (fun i => -((unknown_neighbor_vars pos grid size).getD (i - 1) (0 : Int))) ∨
       cl = c.map
        (fun i => (unknown_neighbor_vars pos grid size).getD (i - 1) (0 : Int))) := by
  unfold generate_CNF at hsome
  split at hsome
  · simp only [Option.some.injEq] at hsome
    subst hsome
    simp at hcl
  · split at hsome
    · cases hsome
    · rename_i number hnum
      split at hsome
      · cases hsome
      · rename_i first_comb hfirst
        split at hsome
        · cases hsome
        · rename_i second_comb hsecond
          simp only [Option.some.injEq] at hsome
          subst hsome
          rcases List.mem_append.mp hcl with hmem | hmem
          · obtain ⟨c, hc, rfl⟩ := List.mem_map.mp hmem
            have : first_comb =
                combos (List.range' 1 (unknown_neighbor_vars pos grid size).length)
                  (number + 1).toNat := by
              by_cases hneg : number + 1 < 0
              · exfalso
                rw [list_combination, if_neg (by omega), if_pos hneg] at hfirst
                cases hfirst
              · rw [list_combination_eq _ _ (by omega)] at hfirst
                exact (Option.some.injEq _ _ ▸ hfirst).symm
            subst this
            exact ⟨(number + 1).toNat, c, hc, Or.inl rfl⟩
          · obtain ⟨c, hc, rfl⟩ := List.mem_map.mp hmem
            have : second_comb =
                combos (List.range' 1 (unknown_neighbor_vars pos grid size).length)
                  (((unknown_neighbor_vars pos grid size).length : Int) - number + 1).toNat := by
              by_cases hneg :
                  ((unknown_neighbor_vars pos grid size).length : Int) - number + 1 < 0
              · exfalso
                rw [list_combination, if_neg (by omega), if_pos hneg] at hsecond
                cases hsecond
              · rw [list_combination_eq _ _ (by omega)] at hsecond
                exact (Option.some.injEq _ _ ▸ hsecond).symm
            subst this
            exact ⟨_, c, hc, Or.inr rfl⟩

/-- C10: within every clause emitted by `generate_CNF`, the literals are
over pairwise distinct variables (hence no repeated literal and no
complementary pair inside one clause). -/
theorem generate_CNF_clause_vars_distinct (grid : Grid) (size : Nat × Nat)
    (pos : Int × Int) (clauses : List (List Int)) (cl : List Int)
    (hb : 0 ≤ pos.1 ∧ pos.1 < (size.1 : Int) ∧ 0 ≤ pos.2 ∧ pos.2 < (size.2 : Int))
    (hsome : generate_CNF pos grid size = some clauses)
    (hcl : cl ∈ clauses) :
    (cl.map Int.natAbs).Nodup := by
  obtain ⟨k, c, hc, hshape⟩ := generate_CNF_clause_shape hsome hcl
  set V := unknown_neighbor_vars pos grid size with hV
  obtain ⟨hsub, hlen⟩ := (mem_combos _ k c).mp hc
  have hcnodup : c.Nodup := List.Nodup.sublist hsub (List.nodup_range' 1 V.length)
  have hbound : ∀ i ∈ c, 1 ≤ i ∧ i ≤ V.length := by
    intro i hi
    have := mem_range'_iff.mp (hsub.subset hi)
    omega
  have hkey : (c.map (fun i => (V.getD (i - 1) (0 : Int)).natAbs)).Nodup := by
    refine List.Nodup.map_on ?_ hcnodup
    intro i hi j hj heq
    obtain ⟨hi1, hi2⟩ := hbound i hi
    obtain ⟨hj1, hj2⟩ := hbound j hj
    have hilt : i - 1 < V.length := by omega
    have hjlt : j - 1 < V.length := by omega
    rw [getD_eq_getElem_int hilt, getD_eq_getElem_int hjlt] at heq
    have hpi : 0 < V[i - 1] := unknown_neighbor_vars_pos _ (List.getElem_mem hilt)
    have hpj : 0 < V[j - 1] := unknown_neighbor_vars_pos _ (List.getElem_mem hjlt)
    have hvij : V[i - 1] = V[j - 1] := by
      rw [← Int.natAbs_of_nonneg (le_of_lt hpi), ← Int.natAbs_of_nonneg (le_of_lt hpj),
        heq]
    have := ((unknown_neighbor_vars_nodup pos grid size).getElem_inj_iff).mp hvij
    omega
  rcases hshape with rfl | rfl
  · rw [List.map_map]
    have : (Int.natAbs ∘ fun i => -(V.getD (i - 1) (0 : Int))) =
        fun i => (V.getD (i - 1) (0 : Int)).natAbs := by
      funext i
      simp [Int.natAbs_neg]
    rw [this]
    exact hkey
  · rw [List.map_map]
    exact hkey

theorem generate_CNF_clause_vars_distinct_witness :
    ([(2 : Int)].map Int.natAbs).Nodup :=
  generate_CNF_clause_vars_distinct [[Cell.hint 1, Cell.unknown]] (1, 2)
    ((0 : Int), (0 : Int)) [[(2 : Int)]] [(2 : Int)] (by decide) (by rfl)
    (List.mem_singleton.mpr rfl)

/-! ### Result decoder (claims C4 and C8) -/

theorem getD_set_ne {α : Type} (l : List α) (i j : Nat) (a d : α) (h : i ≠ j) :
    (l.set i a).getD j d = l.getD j d := by
  simp [List.getD_eq_getElem?_getD, List.getElem?_set_ne h]

theorem getD_set_self_lt {α : Type} (l : List α) (i : Nat) (a d : α)
    (h : i < l.length) : (l.set i a).getD i d = a := by
  simp [List.getD_eq_getElem?_getD, List.getElem?_set_self h]

theorem getD_eq_default_of_le {α : Type} (l : List α) (i : Nat) (d : α)
    (h : l.length ≤ i) : l.getD i d = d := by
  simp [List.getD_eq_getElem?_getD, List.getElem?_eq_none h]

theorem decodeRow_foldl_length (res : List Int) (size : Nat × Nat) (r : Nat) :
    ∀ (cs : List Nat) (out : Grid),
      (cs.foldl (decodeRowStep res size r) out).length = out.length := by
  intro cs
  induction cs with
  | nil => intro out; rfl
  | cons c cs ih =>
    intro out
    rw [List.foldl_cons, ih]
    unfold decodeRowStep
    split
    · rfl
    · split <;> rw [List.length_set]

theorem decodeRow_foldl_getD_ne (res : List Int) (size : Nat × Nat) (r : Nat) :
    ∀ (cs : List Nat) (out : Grid) (r' : Nat), r' ≠ r →
      (cs.foldl (decodeRowStep res size r) out).getD r' [] = out.getD r' [] := by
  intro cs
  induction cs with
  | nil => intro out r' _; rfl
  | cons c cs ih =>
    intro out r' hne
    rw [List.foldl_cons, ih _ r' hne]
    unfold decodeRowStep
    split
    · rfl
    · split <;> exact getD_set_ne _ _ _ _ _ (fun h => hne h.symm)

/-- If the processed row is past the end of the grid, every inner-loop
iteration is a no-op. -/
theorem decodeRow_foldl_id_of_ge (res : List Int) (size : Nat × Nat) (r : Nat) :
    ∀ (cs : List Nat) (out : Grid), out.length ≤ r →
      cs.foldl (decodeRowStep res size r) out = out := by
  intro cs
  induction cs with
  | nil => intro out _; rfl
  | cons c cs ih =>
    intro out hr
    rw [List.foldl_cons]
    have hstep : decodeRowStep res size r out c = out := by
      unfold decodeRowStep
      rw [getD_eq_default_of_le _ _ _ hr]
      rw [if_neg (by simp)]
      split <;> exact List.set_eq_of_length_le hr
    rw [hstep, ih _ hr]

/-- Pointwise description of one full inner loop on row `r`: cells of row
`r` with column in `[s, s+n)` that are in range and unknown receive their
decoded value; every other cell of the row is unchanged. -/
theorem decodeRow_foldl_getD (res : List Int) (size : Nat × Nat) (r : Nat) :
    ∀ (n s : Nat) (out : Grid), r < out.length → ∀ c : Nat,
      (((List.range' s n).foldl (decodeRowStep res size r) out).getD r []).getD c
          Cell.unknown =
        if s ≤ c ∧ c < s + n ∧ c < (out.getD r []).length ∧
            (out.getD r []).getD c Cell.unknown = Cell.unknown then
          decodeCell res size r c
        else (out.getD r []).getD c Cell.unknown := by
  intro n
  induction n with
  | zero =>
    intro s out _ c
    rw [List.range'_zero, List.foldl_nil, if_neg (by omega)]
  | succ n ih =>
    intro s out hr c
    rw [List.range'_succ, List.foldl_cons]
    by_cases hg : (out.getD r []).getD s Cell.unknown = Cell.unknown
    · have hstep : decodeRowStep res size r out s =
          out.set r ((out.getD r []).set s (decodeCell res size r s)) := by
        unfold decodeRowStep decodeCell
        rw [if_neg (fun h => h hg)]
        split <;> rfl
      rw [hstep]
      have hlen' : r < (out.set r ((out.getD r []).set s (decodeCell res size r s))).length := by
        rw [List.length_set]; exact hr
      rw [ih (s + 1) _ hlen' c]
      have hrow' : (out.set r ((out.getD r []).set s (decodeCell res size r s))).getD r [] =
          (out.getD r []).set s (decodeCell res size r s) :=
        getD_set_self_lt _ _ _ _ hr
      rw [hrow']
      rcases Nat.lt_trichotomy c s with hcs | rfl | hcs
      · rw [List.length_set, getD_set_ne _ _ _ _ _ (by omega)]
        rw [if_neg (by omega), if_neg (by omega)]
      · rw [if_neg (by omega)]
        by_cases hsl : c < (out.getD r []).length
        · rw [getD_set_self_lt _ _ _ _ hsl,
            if_pos ⟨Nat.le_refl c, by omega, hsl, hg⟩]
        · rw [List.set_eq_of_length_le (by omega), if_neg (fun h => hsl h.2.2.1)]
      · rw [List.length_set, getD_set_ne _ _ _ _ _ (by omega)]
        by_cases hcond : c < s + 1 + n ∧ c < (out.getD r []).length ∧
            (out.getD r []).getD c Cell.unknown = Cell.unknown
        · rw [if_pos ⟨by omega, hcond⟩, if_pos ⟨by omega, by omega, hcond.2⟩]
        · rw [if_neg (by rintro ⟨_, h2, h3, h4⟩; exact hcond ⟨h2, h3, h4⟩),
            if_neg (by rintro ⟨_, h2, h3, h4⟩; exact hcond ⟨by omega, h3, h4⟩)]
    · have hstep : decodeRowStep res size r out s = out := by
        unfold decodeRowStep
        rw [if_pos hg]
      rw [hstep, ih (s + 1) out hr c]
      rcases Nat.lt_trichotomy c s with hcs | rfl | hcs
      · rw [if_neg (by omega), if_neg (by omega)]
      · rw [if_neg (by omega), if_neg (by rintro ⟨_, _, _, h4⟩; exact hg h4)]
      · by_cases hcond : c < s + 1 + n ∧ c < (out.getD r []).length ∧
            (out.getD r []).getD c Cell.unknown = Cell.unknown
        · rw [if_pos ⟨by omega, hcond⟩, if_pos ⟨by omega, by omega, hcond.2⟩]
        · rw [if_neg (by rintro ⟨_, h2, h3, h4⟩; exact hcond ⟨h2, h3, h4⟩),
            if_neg (by rintro ⟨_, h2, h3, h4⟩; exact hcond ⟨by omega, h3, h4⟩)]

/-- Pointwise description of the whole decoder loop over the first `n`
rows: processed in-range unknown cells receive their decoded value, rows
not yet processed are untouched. -/
theorem decode_foldl_grid (res : List Int) (size : Nat × Nat) :
    ∀ (n : Nat) (out : Grid),
      (((List.range n).foldl (fun output r =>
          (List.range size.2).foldl (decodeRowStep res size r) output) out).length
        = out.length) ∧
      (∀ r, n ≤ r →
        ((List.range n).foldl (fun output r =>
          (List.range size.2).foldl (decodeRowStep res size r) output) out).getD r []
          = out.getD r []) ∧
      (∀ r c, r < n →
        (((List.range n).foldl (fun output r =>
            (List.range size.2).foldl (decodeRowStep res size r) output) out).getD r []
          ).getD c Cell.unknown =
          if c < size.2 ∧ c < (out.getD r []).length ∧
              (out.getD r []).getD c Cell.unknown = Cell.unknown then
            decodeCell res size r c
          else (out.getD r []).getD c Cell.unknown) := by
  intro n
  induction n with
  | zero =>
    intro out
    refine ⟨rfl, fun r _ => rfl, fun r c hr => absurd hr (by omega)⟩
  | succ n ih =>
    intro out
    obtain ⟨ihlen, ihge, ihlt⟩ := ih out
    rw [List.range_succ, List.foldl_append, List.foldl_cons, List.foldl_nil]
    set F := (List.range n).foldl (fun output r =>
      (List.range size.2).foldl (decodeRowStep res size r) output) out with hF
    refine ⟨?_, ?_, ?_⟩
    · rw [decodeRow_foldl_length, ihlen]
    · intro r hr
      rw [decodeRow_foldl_getD_ne _ _ _ _ _ _ (by omega)]
      exact ihge r (by omega)
    · intro r c hr
      rcases Nat.lt_or_ge r n with hrn | hrn
      · rw [decodeRow_foldl_getD_ne _ _ _ _ _ _ (by omega)]
        exact ihlt r c hrn
      · have hreq : r = n := by omega
        subst hreq
        have hFrow : F.getD r [] = out.getD r [] := ihge r (Nat.le_refl r)
        rcases Nat.lt_or_ge r out.length with hlt | hge
        · have hrF : r < F.length := by rw [ihlen]; exact hlt
          have h := decodeRow_foldl_getD res size r size.2 0 F hrF c
          rw [hFrow] at h
          rw [List.range_eq_range' size.2, h]
          rcases Nat.lt_or_ge c size.2 with hc2 | hc2
          · by_cases hcnd : c < (out.getD r []).length ∧
                (out.getD r []).getD c Cell.unknown = Cell.unknown
            · rw [if_pos ⟨by omega, by omega, hcnd⟩, if_pos ⟨hc2, hcnd⟩]
            · rw [if_neg (by rintro ⟨_, _, h3, h4⟩; exact hcnd ⟨h3, h4⟩),
                if_neg (by rintro ⟨_, h3, h4⟩; exact hcnd ⟨h3, h4⟩)]
          · rw [if_neg (by omega), if_neg (by rintro ⟨h1, _⟩; omega)]
        · have hgeF : F.length ≤ r := by rw [ihlen]; exact hge
          rw [decodeRow_foldl_id_of_ge _ _ _ _ _ hgeF, hFrow]
          have hout : out.getD r [] = [] := getD_eq_default_of_le _ _ _ hge
          rw [hout]
          rw [if_neg (by rintro ⟨_, h2, _⟩; simp at h2)]

/-- C4: every originally-unknown in-range cell of the decoded grid is `'T'`
iff the zero-based flattened index is within the assignment and the value
there is positive, and `'G'` otherwise (an out-of-range index yields `'G'`
rather than a failure). -/
theorem ouput_for_pysat_unknown_cell (list_result : List Int) (grid : Grid)
    (size : Nat × Nat) (r c : Nat)
    (hr : r < size.1) (hc : c < size.2)
    (hrg : r < grid.length) (hcg : c < (grid.getD r []).length)
    (hu : (grid.getD r []).getD c Cell.unknown = Cell.unknown) :
    ((ouput_for_pysat list_result grid size).getD r []).getD c Cell.unknown =
      if r * size.2 + c < list_result.length ∧
          0 < list_result.getD (r * size.2 + c) 0 then
        Cell.mine
      else Cell.safe := by
  have h := (decode_foldl_grid list_result size size.1 grid).2.2 r c hr
  rw [if_pos ⟨hc, hcg, hu⟩] at h
  exact h

theorem ouput_for_pysat_unknown_cell_witness :
    ((ouput_for_pysat [1] [[Cell.unknown]] (1, 1)).getD 0 []).getD 0 Cell.unknown =
      if 0 * 1 + 0 < [(1 : Int)].length ∧ 0 < [(1 : Int)].getD (0 * 1 + 0) 0 then
        Cell.mine
      else Cell.safe :=
  ouput_for_pysat_unknown_cell [1] [[Cell.unknown]] (1, 1) 0 0
    (by decide) (by decide) (by decide) (by decide) (by decide)

/-- C8: the decoder leaves every cell that was not originally the unknown
marker unchanged; a cell whose value differs from the input was originally
unknown and now holds `'T'` or `'G'`. -/
theorem ouput_for_pysat_frame (list_result : List Int) (grid : Grid)
    (size : Nat × Nat) (r c : Nat) :
    ((grid.getD r []).getD c Cell.unknown ≠ Cell.unknown →
      ((ouput_for_pysat list_result grid size).getD r []).getD c Cell.unknown =
        (grid.getD r []).getD c Cell.unknown) ∧
    (((ouput_for_pysat list_result grid size).getD r []).getD c Cell.unknown ≠
        (grid.getD r []).getD c Cell.unknown →
      (grid.getD r []).getD c Cell.unknown = Cell.unknown ∧
      (((ouput_for_pysat list_result grid size).getD r []).getD c Cell.unknown =
          Cell.mine ∨
        ((ouput_for_pysat list_result grid size).getD r []).getD c Cell.unknown =
          Cell.safe)) := by
  obtain ⟨hlen, hge, hlt⟩ := decode_foldl_grid list_result size size.1 grid
  unfold ouput_for_pysat
  rcases Nat.lt_or_ge r size.1 with hr | hr
  · have h := hlt r c hr
    constructor
    · intro hne
      rw [h, if_neg (by rintro ⟨_, _, h4⟩; exact hne h4)]
    · intro hdiff
      rw [h] at hdiff ⊢
      by_cases hcnd : c < size.2 ∧ c < (grid.getD r []).length ∧
          (grid.getD r []).getD c Cell.unknown = Cell.unknown
      · rw [if_pos hcnd] at hdiff ⊢
        refine ⟨hcnd.2.2, ?_⟩
        unfold decodeCell
        split
        · exact Or.inl rfl
        · exact Or.inr rfl
      · rw [if_neg hcnd] at hdiff
        exact absurd rfl hdiff
  · have h := hge r hr
    rw [h]
    exact ⟨fun _ => rfl, fun hdiff => absurd rfl hdiff⟩

theorem ouput_for_pysat_frame_witness :
    (((([[Cell.hint 1]] : Grid).getD 0 []).getD 0 Cell.unknown ≠ Cell.unknown →
      ((ouput_for_pysat [1] [[Cell.hint 1]] (1, 1)).getD 0 []).getD 0 Cell.unknown =
        (([[Cell.hint 1]] : Grid).getD 0 []).getD 0 Cell.unknown)) ∧
    (((ouput_for_pysat [1] [[Cell.hint 1]] (1, 1)).getD 0 []).getD 0 Cell.unknown ≠
        (([[Cell.hint 1]] : Grid).getD 0 []).getD 0 Cell.unknown →
      (([[Cell.hint 1]] : Grid).getD 0 []).getD 0 Cell.unknown = Cell.unknown ∧
      (((ouput_for_pysat [1] [[Cell.hint 1]] (1, 1)).getD 0 []).getD 0 Cell.unknown =
          Cell.mine ∨
        ((ouput_for_pysat [1] [[Cell.hint 1]] (1, 1)).getD 0 []).getD 0 Cell.unknown =
          Cell.safe)) :=
  ouput_for_pysat_frame [1] [[Cell.hint 1]] (1, 1) 0 0

/-! ### Decoder aliasing (claim C9) -/

/-- C9 exhibit: under Python reference semantics, `output = grid.copy()` is
a shallow copy, so the returned grid shares every row object with the
caller's grid, and writing `'T'` into the output mutates the caller's row:
after the call the heap row referenced by the input grid holds `'T'`, not
the original `'_'`. -/
theorem ouput_for_pysat_refs_mutates_input :
    (ouput_for_pysat_refs [1] [0] (1, 1) [[Cell.unknown]]).1 = [[Cell.mine]] ∧
    (ouput_for_pysat_refs [1] [0] (1, 1) [[Cell.unknown]]).2 = [0] := by
  constructor <;> rfl

end GemHunter
